import Mathlib

/-!
Verification of the incremental translation-merge core of `rn-azure-translator`
(`src/index.js`): the recursive missing-key diff over nested localization trees
(`findMissingKeys`, lines 191-213), the retrying translation wrapper with
exponential backoff (`apiSingleCall`, lines 154-188), the structure-preserving
tree translator (`translateNestedObject`, lines 239-258), the shallow merge and
persist step (`translateAndSaveNestedObject` lines 215-237, `saveTranslations`
lines 100-123, `formatValue` lines 74-95), the calendar derivation
(`daysForLocale`, lines 39-55), the per-locale path selection
(`translateAllKeys`, lines 264-272) and the locale loop
(`translateForAllLanguages`, lines 274-282).

JavaScript values occurring in localization trees are modelled by the mutual
inductive family `JValue` / `JElems` / `JFields`: null, booleans, numbers,
strings, arrays (element spine `JElems`) and plain objects (ordered key/value
spine `JFields`, matching JS insertion order, which `for..in` and
`Object.entries` iterate for identifier-like string keys).  Absence of a
property (JS `undefined`) is modelled as `Option.none`.  Asynchronous provider
calls are modelled by pure oracle functions; network timing, where it matters,
is an explicit input.
-/

mutual
/-- A JavaScript value as it can occur in a localization tree. -/
inductive JValue where
  | vNull
  | vBool (b : Bool)
  | vNum (n : Int)
  | vStr (s : String)
  | vArr (xs : JElems)
  | vObj (fs : JFields)
deriving DecidableEq
/-- Element spine of a JS array. -/
inductive JElems where
  | nil
  | cons (v : JValue) (rest : JElems)
deriving DecidableEq
/-- Ordered own-property spine of a plain JS object. -/
inductive JFields where
  | nil
  | cons (k : String) (v : JValue) (rest : JFields)
deriving DecidableEq
end

open JValue

/-- Build a field spine from a Lean list (convenience for concrete trees). -/
def JFields.ofList : List (String × JValue) → JFields :=
  fun l => l.foldr (fun kv r => .cons kv.1 kv.2 r) .nil

/-- Build an element spine from a Lean list (convenience for concrete trees). -/
def JElems.ofList : List JValue → JElems :=
  fun l => l.foldr (fun v r => .cons v r) .nil

/-- First value stored under key `k` (JS objects have unique keys, so first = only). -/
def JFields.lookup : JFields → String → Option JValue
  | .nil, _ => none
  | .cons k v rest, key => if k = key then some v else rest.lookup key

/-- Whether the object spine has an own property `k`; models `hasOwnProperty`. -/
def JFields.hasKey (fs : JFields) (k : String) : Bool :=
  (fs.lookup k).isSome

/-- Keys of the spine, in order. -/
def JFields.keys : JFields → List String
  | .nil => []
  | .cons k _ rest => k :: rest.keys

/-- Concatenation of two field spines. -/
def JFields.append : JFields → JFields → JFields
  | .nil, g => g
  | .cons k v rest, g => .cons k v (rest.append g)

/-- Length of an element spine. -/
def JElems.length : JElems → Nat
  | .nil => 0
  | .cons _ rest => 1 + rest.length

/-- Element at position `i` of an array spine, if any. -/
def JElems.get : JElems → Nat → Option JValue
  | .nil, _ => none
  | .cons v _, 0 => some v
  | .cons _ rest, i + 1 => rest.get i

/-- JS property read `v[k]`, `none` meaning `undefined`.  Reading an ordinary
(identifier-like) key off a non-object base — `null`, a string, a number, a
boolean or an array — yields `undefined` in JS; exotic keys such as `length`
or numeric string indices on strings/arrays are out of scope, since the tool's
TS serializer (line 116) emits keys bare (`key: value`) and thus only handles
identifier-like keys anyway. -/
def jsGet : JValue → String → Option JValue
  | .vObj fs, k => fs.lookup k
  | _, _ => none

/-- The guarded read `target ? target[key] : undefined` (line 197) on a
possibly-`undefined` base.  All falsy bases (`undefined`, `null`, `''`, `0`,
`false`) and truthy non-object bases alike give `undefined` for the keys in
scope, which is exactly `Option.bind` over `jsGet`. -/
def jsGetOpt (t : Option JValue) (k : String) : Option JValue :=
  t.bind (fun v => jsGet v k)

/-- Value reached from a possibly-`undefined` base by reading a chain of keys;
`none` as soon as a read yields `undefined`. -/
def jsGetPath : Option JValue → List String → Option JValue
  | t, [] => t
  | t, k :: ks => jsGetPath (jsGetOpt t k) ks

/-- A value that the differ treats as a leaf: anything that is not a plain
object (line 199 tests `typeof sourceValue === 'object' && !Array.isArray(sourceValue)
&& sourceValue !== null`, so strings, arrays, numbers, booleans and null all
fall to the leaf branch and are copied verbatim). -/
def isLeafB : JValue → Bool
  | .vObj _ => false
  | _ => true

/-- Model of `findMissingKeys(source, target)` (lines 191-213).  The first
argument is the field spine of the source object; the second is the target
value, `none` when the recursive call received `undefined`.  For each source
key: a plain-object source value recurses and is kept only when the nested
result is non-empty; any other source value is copied verbatim exactly when
the target property is `undefined` or `null`. -/
def findMissingKeys : JFields → Option JValue → JFields
  | .nil, _ => .nil
  | .cons k sv rest, t =>
    let tv : Option JValue := jsGetOpt t k
    let tail := findMissingKeys rest t
    match sv with
    | .vObj svf =>
      let nested := findMissingKeys svf tv
      if nested = .nil then tail else .cons k (.vObj nested) tail
    | _ =>
      if tv = none ∨ tv = some .vNull then .cons k sv tail else tail

mutual
/-- Recursively: every object spine reachable through objects has pairwise
distinct keys.  True of every value produced by JS object literals/parsers,
since JS objects cannot carry duplicate own keys. -/
def nodupKeysV : JValue → Bool
  | .vObj fs => nodupKeysF fs
  | _ => true
/-- Field-spine side of `nodupKeysV`. -/
def nodupKeysF : JFields → Bool
  | .nil => true
  | .cons k v rest => !(rest.hasKey k) && nodupKeysV v && nodupKeysF rest
end

mutual
/-- Model of `translateNestedObject(obj, desiredLanguage)` (lines 239-258) on a
field spine; `f` is the pure oracle for `apiSingleCall(value, desiredLanguage)`
at the fixed desired language.  Entries are processed in `Object.entries`
order and rebuilt in the same order. -/
def translateNestedObject (f : String → String) : JFields → JFields
  | .nil => .nil
  | .cons k v rest => .cons k (translateValue f v) (translateNestedObject f rest)
/-- Per-value dispatch of the loop body (lines 244-254): a string is translated,
an array is mapped element-wise, a non-null non-array object recurses, anything
else is returned unchanged. -/
def translateValue (f : String → String) : JValue → JValue
  | .vStr s => .vStr (f s)
  | .vArr xs => .vArr (translateArray f xs)
  | .vObj fs => .vObj (translateNestedObject f fs)
  | v => v
/-- Element-wise array handling (lines 247-249): string elements are translated,
all other elements pass through unchanged; no recursion into nested
arrays/objects inside an array. -/
def translateArray (f : String → String) : JElems → JElems
  | .nil => .nil
  | .cons x rest =>
    .cons (match x with | .vStr s => .vStr (f s) | other => other) (translateArray f rest)
end

mutual
/-- Number of `apiSingleCall` invocations `translateNestedObject` performs on a
field spine (one per string reached by its dispatch). -/
def translateCallsF : JFields → Nat
  | .nil => 0
  | .cons _ v rest => translateCallsV v + translateCallsF rest
/-- Call count of the per-value dispatch: 1 for a string, one per string element
for an array (non-string elements make no call), recursion for objects, 0 for
other scalars. -/
def translateCallsV : JValue → Nat
  | .vStr _ => 1
  | .vArr xs => translateCallsE xs
  | .vObj fs => translateCallsF fs
  | _ => 0
/-- Call count over array elements: only direct string elements are sent to the
provider. -/
def translateCallsE : JElems → Nat
  | .nil => 0
  | .cons (.vStr _) rest => 1 + translateCallsE rest
  | .cons _ rest => translateCallsE rest
end

mutual
/-- Number of string leaf occurrences in a value, counting recursively through
objects and arrays (the spec's notion of translatable string occurrences). -/
def stringLeavesV : JValue → Nat
  | .vStr _ => 1
  | .vArr xs => stringLeavesE xs
  | .vObj fs => stringLeavesF fs
  | _ => 0
/-- String leaf occurrences across array elements. -/
def stringLeavesE : JElems → Nat
  | .nil => 0
  | .cons v rest => stringLeavesV v + stringLeavesE rest
/-- String leaf occurrences across a field spine. -/
def stringLeavesF : JFields → Nat
  | .nil => 0
  | .cons _ v rest => stringLeavesV v + stringLeavesF rest
end

mutual
/-- The LocalizationTree array invariant of the spec's data model: every array
holds only strings and non-container scalars (no nested arrays or objects
inside arrays). -/
def flatArraysV : JValue → Bool
  | .vArr xs => flatArraysE xs
  | .vObj fs => flatArraysF fs
  | _ => true
/-- Array-element side of `flatArraysV`: each element is neither an array nor an
object. -/
def flatArraysE : JElems → Bool
  | .nil => true
  | .cons (.vArr _) _ => false
  | .cons (.vObj _) _ => false
  | .cons _ rest => flatArraysE rest
/-- Field-spine side of `flatArraysV`. -/
def flatArraysF : JFields → Bool
  | .nil => true
  | .cons _ v rest => flatArraysV v && flatArraysF rest
end

/-- Entries of `e` in order, each value overridden by `t`'s value at that key
when `t` has it — the first half of the JS object spread `{...e, ...t}`
(line 233): keys already in `e` keep their original position. -/
def overrideFields (e t : JFields) : JFields :=
  match e with
  | .nil => .nil
  | .cons k v rest => .cons k ((t.lookup k).getD v) (overrideFields rest t)

/-- Entries of `t` whose key is not in `e`, in `t`'s order — the keys the
spread `{...e, ...t}` appends after `e`'s. -/
def newFields (t e : JFields) : JFields :=
  match t with
  | .nil => .nil
  | .cons k v rest => if e.hasKey k then newFields rest e else .cons k v (newFields rest e)

/-- The shallow top-level merge `{...existingTranslations, ...translatedData}`
of line 233. -/
def spreadMerge (e t : JFields) : JFields :=
  (overrideFields e t).append (newFields t e)

/-- JS property write `obj[k] = v`: updates the value in place if the key
exists (keeping its position), otherwise appends the key at the end. -/
def setKey : JFields → String → JValue → JFields
  | .nil, k, v => .cons k v .nil
  | .cons k' v' rest, k, v =>
    if k' = k then .cons k' v rest else .cons k' v' (setKey rest k v)

/-- The data actually persisted by `saveTranslations(filePath, data, ext,
missingKeys)` (lines 100-108): a copy of `data` in which, exactly when
`missingKeys` has the top-level own key `calendar_locale`, that key is
overwritten with the freshly computed `daysForLocale(currentLanguage)` value
(passed here as `calendar`), regardless of what `data` held there. -/
def saveTranslationsData (data missing : JFields) (calendar : JValue) : JFields :=
  if missing.hasKey "calendar_locale" then setKey data "calendar_locale" calendar else data

/-- Number of `apiSingleCall` invocations made by `daysForLocale` (lines 39-55):
exactly one, for the string `'Hoje'` at line 53. -/
def daysForLocaleCalls : Nat := 1

/-- Number of `apiSingleCall` invocations made by `saveTranslations` (lines
100-123): those of `daysForLocale`, exactly when `calendar_locale` is among the
missing keys (line 104), none otherwise. -/
def saveTranslationsCalls (missing : JFields) : Nat :=
  if missing.hasKey "calendar_locale" then daysForLocaleCalls else 0

/-- Total provider invocations of one locale's translate-and-persist step
(lines 230 and 235): the tree translation's calls plus the persist step's. -/
def totalProviderCalls (missing : JFields) : Nat :=
  translateCallsF missing + saveTranslationsCalls missing

/-- Outcome of `apiSingleCall`: `Except.error (text, attempts)` models the
`throw new Error(...)` at line 184 carrying the original text and the attempt
count; `Except.ok none` models falling off the loop without returning (which in
JS yields `undefined`, possible only when `retryCount < 1`); `Except.ok (some s)`
is the returned translation. -/
abbrev ApiOutcome := Except (String × Nat) (Option String)

/-- One run of the retry loop of `apiSingleCall` (lines 164-187), from attempt
number `attempt` with current backoff `delay`.  `provider i` is the result of
the `i`-th `axios.post` (line 166): `some s` for a successful response with
translation `s`, `none` for a thrown/rejected call.  Returns the outcome, the
number of provider invocations performed, and the list of `sleep` durations in
order (line 181; the delay doubles after each sleep, line 182). -/
def apiLoop (provider : Nat → Option String) (value : String)
    (retryCount attempt delay : Nat) : ApiOutcome × Nat × List Nat :=
  if retryCount < attempt then (.ok none, 0, [])
  else
    match provider attempt with
    | some res => (.ok (some res), 1, [])
    | none =>
      if attempt < retryCount then
        let r := apiLoop provider value retryCount (attempt + 1) (delay * 2)
        (r.1, r.2.1 + 1, delay :: r.2.2)
      else (.error (value, retryCount), 1, [])
termination_by retryCount + 1 - attempt
decreasing_by omega

/-- Model of `apiSingleCall(value, desiredLanguage, retryCount = 3, delay = 1000)`
(lines 154-188): the retry loop started at attempt 1. -/
def apiSingleCall (provider : Nat → Option String) (value : String)
    (retryCount : Nat := 3) (delay : Nat := 1000) : ApiOutcome × Nat × List Nat :=
  apiLoop provider value retryCount 1 delay

/-- The backtick character (code 96). -/
def btk : Char := Char.ofNat 96

/-- The single-quote character (code 39). -/
def squo : Char := Char.ofNat 39

/-- The double-quote character (code 34). -/
def dquo : Char := Char.ofNat 34

/-- Whether a character occurs in the list; models `String.prototype.includes`
for a single-character needle. -/
def hasChar : List Char → Char → Bool
  | [], _ => false
  | c :: rest, x => c = x || hasChar rest x

/-- `value.replace(/`/g, '\\`')` (line 87): each backtick is replaced by a
backslash-backtick pair; all other characters are kept. -/
def escBackticks : List Char → List Char
  | [] => []
  | c :: rest => if c = btk then '\\' :: btk :: escBackticks rest else c :: escBackticks rest

/-- The `typeof value === 'string'` branch of `formatValue` (lines 81-92), as
the emitted character sequence.  A string containing a newline is wrapped in
backticks with its content unchanged — `value.replace(/\n/g, '\n')` (line 84)
replaces each newline by a newline and is therefore the identity, and no
backtick escaping happens on this branch.  Otherwise a string containing a
single or double quote is wrapped in backticks with backticks escaped
(line 87).  Otherwise the string is wrapped in single quotes verbatim
(line 90).  (The `calendar_locale` branch at line 76 emits JSON and the
non-string fallthrough at line 94 returns the value unchanged; both are outside
this claim's scope.) -/
def formatStringValue (v : List Char) : List Char :=
  if hasChar v '\n' then btk :: v ++ [btk]
  else if hasChar v squo ∨ hasChar v dquo then btk :: escBackticks v ++ [btk]
  else squo :: v ++ [squo]

/-- Character denoted by the two-character escape `\c` in a JS string or
template literal: `\n`, `\t`, `\r` are control characters, and any other
escaped character stands for itself (covers the quote, double-quote, backtick
and backslash escapes).  Numeric `\xHH`/`\uHHHH` escapes and legacy octal
escapes are not modelled; no string in scope contains them, since the
serializer only ever emits the backslash-backtick escape. -/
def escChar (c : Char) : Char :=
  if c = 'n' then '\n' else if c = 't' then '\t' else if c = 'r' then '\r' else c

/-- Parse the body of a single-quoted JS string literal (the opening quote
already consumed): returns the denoted characters and the remaining input past
the closing quote, or `none` for an unterminated literal, a bare line
terminator (illegal inside a single-quoted literal), or a dangling backslash. -/
def parseSingleQuoted : List Char → Option (List Char × List Char)
  | [] => none
  | c :: rest =>
    if c = squo then some ([], rest)
    else if c = '\n' ∨ c = '\r' then none
    else if c = '\\' then
      match rest with
      | [] => none
      | d :: rest2 =>
        (parseSingleQuoted rest2).map (fun p : List Char × List Char => (escChar d :: p.1, p.2))
    else (parseSingleQuoted rest).map (fun p : List Char × List Char => (c :: p.1, p.2))

/-- Parse the body of a JS template literal (the opening backtick already
consumed): returns the denoted characters and the remaining input past the
closing backtick.  A `$` immediately followed by `{` starts an interpolation,
so the template is not a constant string literal and the parse fails; a
dangling backslash or an unterminated literal fails.  (JS additionally accepts
carriage returns inside templates and normalizes them to newlines; that
normalization is not modelled — a carriage return fails here instead, and
carriage returns are excluded from every statement about this parser.) -/
def parseTemplateBody : List Char → Option (List Char × List Char)
  | [] => none
  | c :: rest =>
    if c = btk then some ([], rest)
    else if c = '\r' then none
    else if c = '\\' then
      match rest with
      | [] => none
      | d :: rest2 =>
        (parseTemplateBody rest2).map (fun p : List Char × List Char => (escChar d :: p.1, p.2))
    else if c = '$' ∧ rest.head? = some '{' then none
    else (parseTemplateBody rest).map (fun p : List Char × List Char => (c :: p.1, p.2))

/-- Parse a complete JS string-valued literal occupying the whole input: a
single-quoted string literal or a constant template literal, with nothing
before or after it.  Returns the string value the literal denotes.  (These are
the only two forms `formatValue` emits for strings; double-quoted literals are
not needed.) -/
def parseJsLiteral : List Char → Option (List Char)
  | [] => none
  | c :: rest =>
    if c = squo then
      (parseSingleQuoted rest).bind
        (fun p : List Char × List Char => if p.2 = [] then some p.1 else none)
    else if c = btk then
      (parseTemplateBody rest).bind
        (fun p : List Char × List Char => if p.2 = [] then some p.1 else none)
    else none

/-- Whether the character list contains a `$` immediately followed by `{`
(the start of a template interpolation). -/
def hasDollarBrace : List Char → Bool
  | [] => false
  | c :: rest => (c = '$' && rest.head? = some '{') || hasDollarBrace rest

/-- Days from the epoch 1970-01-01 to the civil date `y-m-d` (month `1..12`;
`d` may lie outside `1..31`, extra or missing days carrying over, which is how
JS `Date.UTC` day normalization behaves).  Standard era-based civil-calendar
arithmetic; `Int` division is Euclidean, and the era shift keeps all inner
divisions nonnegative. -/
def daysFromCivil (y m d : Int) : Int :=
  let y2 := if m ≤ 2 then y - 1 else y
  let era := (if 0 ≤ y2 then y2 else y2 - 399) / 400
  let yoe := y2 - era * 400
  let mp := if 2 < m then m - 3 else m + 9
  let doy := (153 * mp + 2) / 5 + d - 1
  let doe := yoe * 365 + yoe / 4 - yoe / 100 + doy
  era * 146097 + doe - 719468

/-- The 1-based civil month of the day `z` days after 1970-01-01 (inverse
direction of `daysFromCivil`, month component only). -/
def monthOfDays (z : Int) : Int :=
  let z2 := z + 719468
  let era := (if 0 ≤ z2 then z2 else z2 - 146096) / 146097
  let doe := z2 - era * 146097
  let yoe := (doe - doe / 1460 + doe / 36524 - doe / 146096) / 365
  let doy := doe - (365 * yoe + yoe / 4 - yoe / 100)
  let mp := (5 * doy + 2) / 153
  if mp < 10 then mp + 3 else mp - 9

/-- Epoch-day number of the instant `Date.UTC(y, monthIdx, day)` (`monthIdx`
0-based, as in JS; the instant is midnight UTC of the — possibly normalized —
date). -/
def jsUTCDays (y monthIdx day : Int) : Int :=
  daysFromCivil y (monthIdx + 1) day

/-- Epoch-day number of the calendar date shown for a UTC midnight `utcDays`
by a formatter running in a timezone `tzMin` minutes ahead of UTC
(`Intl.DateTimeFormat` with no `timeZone` option formats in the runtime's
local timezone): the UTC instant `86400000 * utcDays` ms shifted by
`60000 * tzMin` ms, floored to days. -/
def localShownDays (utcDays tzMin : Int) : Int :=
  (86400000 * utcDays + 60000 * tzMin) / 86400000

/-- Weekday index (0 = Sunday .. 6 = Saturday) of an epoch-day number
(1970-01-01 was a Thursday). -/
def weekdayOfDays (z : Int) : Int :=
  (z + 4) % 7

/-- Weekday index shown by a local-timezone formatter for `Date.UTC(2021, 5, day)`
(line 42's dates). -/
def shownWeekday (day tzMin : Int) : Int :=
  weekdayOfDays (localShownDays (jsUTCDays 2021 5 day) tzMin)

/-- 0-based month index shown by a local-timezone formatter for
`Date.UTC(2021, month, 2)` (line 45's dates). -/
def shownMonth (month tzMin : Int) : Int :=
  monthOfDays (localShownDays (jsUTCDays 2021 month 2) tzMin) - 1

/-- The record `daysForLocale` builds (lines 48-54), field order as written. -/
structure CalendarLocale where
  monthNames : List String
  monthNamesShort : List String
  dayNames : List String
  dayNamesShort : List String
  today : String
deriving DecidableEq

/-- Model of `daysForLocale(localeName)` (lines 39-55).
`fmtWeekday loc fmt w` models `new Intl.DateTimeFormat(loc, { weekday: fmt })
.format(date)` where `w` is the weekday index the formatter's (runtime-local)
timezone shows for that date, and `fmtMonth loc fmt m` likewise with `m` the
0-based month index; `tzMin` is the runtime timezone's offset from UTC in
minutes.  `translate text to` is the pure oracle for `apiSingleCall(text, to)`.
`currentLanguage` is the module global read at line 53; the function is only
ever called with `localeName` equal to the current iteration's language
(lines 106 and 276), but the two are kept distinct here as in the code.
Note the remap at line 40 applies to `localeCode` (used for date formatting)
only, while the `'Hoje'` translation at line 53 uses `currentLanguage`. -/
def daysForLocale (fmtWeekday : String → String → Int → String)
    (fmtMonth : String → String → Int → String)
    (translate : String → String → String)
    (tzMin : Int) (localeName currentLanguage : String) : CalendarLocale :=
  let localeCode := if localeName = "lzh" then "zh" else localeName
  let getWeekNames := fun (format : String) =>
    (List.range 7).map (fun day => fmtWeekday localeCode format (shownWeekday day tzMin))
  let getMonthNames := fun (format : String) =>
    (List.range 12).map (fun month => fmtMonth localeCode format (shownMonth month tzMin))
  { monthNames := getMonthNames "long"
    monthNamesShort := getMonthNames "short"
    dayNames := getWeekNames "long"
    dayNamesShort := getWeekNames "short"
    today := translate "Hoje" currentLanguage }

/-- The JValue the calendar record persists as (object shape of lines 48-54). -/
def calendarJValue (c : CalendarLocale) : JValue :=
  .vObj (JFields.ofList
    [("monthNames", .vArr (JElems.ofList (c.monthNames.map JValue.vStr))),
     ("monthNamesShort", .vArr (JElems.ofList (c.monthNamesShort.map JValue.vStr))),
     ("dayNames", .vArr (JElems.ofList (c.dayNames.map JValue.vStr))),
     ("dayNamesShort", .vArr (JElems.ofList (c.dayNamesShort.map JValue.vStr))),
     ("today", .vStr c.today)])

/-- Observable events of the locale loop: `start i` is the beginning of the
loop body for the `i`-th locale (line 276), `write i` is the execution of the
`fs.writeFileSync` persisting locale `i`'s file (line 110 or 119). -/
inductive LocEvent where
  | start (i : Nat)
  | write (i : Nat)
deriving DecidableEq

/-- Event trace of `translateForAllLanguages` (lines 274-282) over the locales
`locs` (by index).  `calMissing i` says whether `calendar_locale` is among
locale `i`'s missing keys.  `net i` is the number of later loop-iteration
boundaries that pass before the response to locale `i`'s pending
`apiSingleCall('Hoje', …)` network call arrives — network latency is the
model's input.  `pending` carries `(locale, remaining boundaries)` pairs.

Faithfulness: every async call in the per-locale pipeline is awaited except
the `saveTranslations(...)` invocation at line 235, which is not awaited.  An
async function body runs synchronously up to its first executed `await`, so
when `calendar_locale` is not missing, `saveTranslations` performs its
synchronous `writeFileSync` before returning and the write lands inside the
same iteration; when it is missing, execution suspends at
`await daysForLocale(...)` (line 106) on the `'Hoje'` network call, the loop
moves on, and the write runs only when that response arrives, the loop
iterations providing the suspension points.  Responses still pending when the
loop ends are drained afterwards in arrival order. -/
def runLocalesTrace (calMissing : Nat → Bool) (net : Nat → Nat) :
    List Nat → List (Nat × Nat) → List LocEvent
  | [], pending => pending.map (fun p => .write p.1)
  | i :: rest, pending =>
    let arrived := (pending.filter (fun p => p.2 = 0)).map (fun p => LocEvent.write p.1)
    let waiting := (pending.filter (fun p => ¬ p.2 = 0)).map (fun p => (p.1, p.2 - 1))
    arrived ++ [.start i] ++
      (if calMissing i then
        runLocalesTrace calMissing net rest (waiting ++ [(i, net i)])
      else
        .write i :: runLocalesTrace calMissing net rest waiting)

/-- The target file path `translateAllKeys` uses for a locale (line 267):
the template literal hardcodes the `.ts` suffix. -/
def filePathFor (outputDir desiredLanguage : String) : String :=
  outputDir ++ "/" ++ desiredLanguage ++ ".ts"

/-- Modelled from the spec: the claimed target path `{outputDir}/{locale}.{ext}`
with `ext` the source file's extension (spec §6, "path = `{outputDir}/{locale}.{ext}`"). -/
def specTargetPath (outputDir locale ext2 : String) : String :=
  outputDir ++ "/" ++ locale ++ ext2

/-- On-disk serialization formats `saveTranslations` can produce. -/
inductive PersistFormat where
  | json
  | tsModule
deriving DecidableEq

/-- Format dispatch of `saveTranslations` (lines 109-121), keyed on the source
file's extension: `.json` sources are written with `JSON.stringify`, `.ts`
sources as a TypeScript default-export module; any other extension throws
(`none`). -/
def saveFormatFor (ext2 : String) : Option PersistFormat :=
  if ext2 = ".json" then some .json else if ext2 = ".ts" then some .tsModule else none

/-- The existing-translations tree `translateAndSaveNestedObject` starts from
(lines 216-221): the parsed target file when it exists, else the empty tree. -/
def loadExisting (onDisk : Option JFields) : JFields :=
  onDisk.getD .nil

/-- Top-level lookup behavior of `findMissingKeys` (used to characterize it): a
key absent from the source is absent from the diff; a key whose source value is
a plain object is present iff the recursive diff of that subtree against the
corresponding target property is non-empty; any other key is present, with the
source value copied verbatim, iff the corresponding target property is
`undefined` or `null`. -/
def missingLookupSpec (S : JFields) (t : Option JValue) (k : String) : Option JValue :=
  match S.lookup k with
  | none => none
  | some (.vObj f) =>
    if findMissingKeys f (jsGetOpt t k) = .nil then none
    else some (.vObj (findMissingKeys f (jsGetOpt t k)))
  | some sv =>
    if jsGetOpt t k = none ∨ jsGetOpt t k = some .vNull then some sv else none

mutual
/-- Shape of a value: the value with every string's content erased.  Two values
have the same shape iff they have identical key sets, key order and nesting
structure at every level, identical array lengths and element positions, and
identical non-string scalar content. -/
def shapeV : JValue → JValue
  | .vStr _ => .vStr ""
  | .vArr xs => .vArr (shapeE xs)
  | .vObj fs => .vObj (shapeF fs)
  | v => v
/-- Element-spine side of `shapeV`. -/
def shapeE : JElems → JElems
  | .nil => .nil
  | .cons v rest => .cons (shapeV v) (shapeE rest)
/-- Field-spine side of `shapeV`. -/
def shapeF : JFields → JFields
  | .nil => .nil
  | .cons k v rest => .cons k (shapeV v) (shapeF rest)
end

/-! ### Helper lemmas about paths, lookup and the differ -/

theorem jsGetPath_none : ∀ p : List String, jsGetPath none p = none
  | [] => rfl
  | _ :: ks => jsGetPath_none ks

theorem jsGet_leaf (w : JValue) (k : String) (h : isLeafB w = true) : jsGet w k = none := by
  cases w <;> first | rfl | simp [isLeafB] at h

theorem jsGetPath_leaf (w : JValue) (k : String) (ks : List String)
    (h : isLeafB w = true) : jsGetPath (some w) (k :: ks) = none := by
  have hg : jsGetOpt (some w) k = none := by
    simp [jsGetOpt, jsGet_leaf w k h]
  rw [jsGetPath, hg, jsGetPath_none]

theorem jsGetPath_ite_leaf (c : Prop) [Decidable c] (sv : JValue) (k2 : String)
    (ks : List String) (hsv : isLeafB sv = true) :
    jsGetPath (if c then some sv else none) (k2 :: ks) = none := by
  split
  · exact jsGetPath_leaf sv k2 ks hsv
  · exact jsGetPath_none _

theorem jsGetPath_obj_cons (fs : JFields) (k1 : String) (q : List String) :
    jsGetPath (some (.vObj fs)) (k1 :: q) = jsGetPath (fs.lookup k1) q := by
  simp [jsGetPath, jsGetOpt, jsGet]

theorem hasKey_false_iff (fs : JFields) (k : String) :
    fs.hasKey k = false ↔ fs.lookup k = none := by
  unfold JFields.hasKey
  cases fs.lookup k <;> simp

theorem nodupKeysF_cons (k : String) (v : JValue) (rest : JFields) :
    nodupKeysF (.cons k v rest) = true ↔
      rest.hasKey k = false ∧ nodupKeysV v = true ∧ nodupKeysF rest = true := by
  simp [nodupKeysF, Bool.and_eq_true, Bool.not_eq_true', and_assoc]

theorem findMissingKeys_lookup_notin :
    ∀ (S : JFields) (t : Option JValue) (k : String),
      S.hasKey k = false → (findMissingKeys S t).lookup k = none
  | .nil, _, _ => fun _ => rfl
  | .cons k' sv rest, t, k => fun h => by
    have hk : ¬ k' = k := by
      intro e
      subst e
      simp [JFields.hasKey, JFields.lookup] at h
    have hrest : rest.hasKey k = false := by
      simpa [JFields.hasKey, JFields.lookup, hk] using h
    have ih := findMissingKeys_lookup_notin rest t k hrest
    cases sv <;> simp only [findMissingKeys] <;> split <;>
      simp [JFields.lookup, hk, ih]

theorem findMissingKeys_lookup :
    ∀ (S : JFields) (t : Option JValue) (k : String),
      nodupKeysF S = true →
      (findMissingKeys S t).lookup k = missingLookupSpec S t k
  | .nil, _, _ => fun _ => rfl
  | .cons k' sv rest, t, k => fun h => by
    obtain ⟨hk', hv, hrest⟩ := (nodupKeysF_cons k' sv rest).mp h
    by_cases hkk : k' = k
    · subst hkk
      have htail : (findMissingKeys rest t).lookup k' = none :=
        findMissingKeys_lookup_notin rest t k' hk'
      cases sv <;>
        simp only [findMissingKeys, missingLookupSpec, JFields.lookup, if_pos rfl] <;>
        split <;> rename_i hcond <;> simp [JFields.lookup, htail, hcond]
    · have ih := findMissingKeys_lookup rest t k hrest
      have hspec : missingLookupSpec (.cons k' sv rest) t k = missingLookupSpec rest t k := by
        simp [missingLookupSpec, JFields.lookup, hkk]
      rw [hspec]
      cases sv <;> simp only [findMissingKeys] <;> split <;>
        simp [JFields.lookup, hkk, ih]

theorem nodupKeysV_of_lookup :
    ∀ (S : JFields) (k : String) (v : JValue),
      nodupKeysF S = true → S.lookup k = some v → nodupKeysV v = true
  | .nil, _, _ => fun _ hl => by simp [JFields.lookup] at hl
  | .cons k' v' rest, k, v => fun h hl => by
    obtain ⟨hk', hv, hrest⟩ := (nodupKeysF_cons k' v' rest).mp h
    by_cases hkk : k' = k
    · simp only [JFields.lookup, if_pos hkk] at hl
      cases hl
      exact hv
    · simp only [JFields.lookup, if_neg hkk] at hl
      exact nodupKeysV_of_lookup rest k v hrest hl

theorem findMissing_leafPath_aux :
    ∀ (p : List String) (S : JFields) (t : Option JValue) (w : JValue),
      nodupKeysF S = true → p ≠ [] → isLeafB w = true →
      (jsGetPath (some (.vObj (findMissingKeys S t))) p = some w ↔
        (jsGetPath (some (.vObj S)) p = some w ∧
          (jsGetPath t p = none ∨ jsGetPath t p = some .vNull)))
  | [], _, _, _ => fun _ hp _ => absurd rfl hp
  | [k], S, t, w => fun hnd _ hw => by
    have hT : jsGetPath t [k] = jsGetOpt t k := rfl
    rw [jsGetPath_obj_cons, jsGetPath_obj_cons, findMissingKeys_lookup S t k hnd, hT]
    simp only [jsGetPath]
    rcases hS : S.lookup k with _ | v
    · simp [missingLookupSpec, hS]
    · cases v <;> simp only [missingLookupSpec, hS]
      case vObj f =>
        have hwne : ∀ g : JFields, JValue.vObj g ≠ w := by
          intro g he
          rw [← he] at hw
          simp [isLeafB] at hw
        split <;> simp [hwne]
      all_goals
        split <;> rename_i hc <;> simp [hc]
  | k :: k2 :: ks, S, t, w => fun hnd _ hw => by
    rw [jsGetPath_obj_cons, jsGetPath_obj_cons, findMissingKeys_lookup S t k hnd]
    have hT : jsGetPath t (k :: k2 :: ks) = jsGetPath (jsGetOpt t k) (k2 :: ks) := rfl
    rw [hT]
    rcases hS : S.lookup k with _ | v
    · simp [missingLookupSpec, hS, jsGetPath_none]
    · cases v <;> simp only [missingLookupSpec, hS]
      case vObj f =>
        have hndf : nodupKeysF f = true := by
          have := nodupKeysV_of_lookup S k (.vObj f) hnd hS
          simpa [nodupKeysV] using this
        have ih := findMissing_leafPath_aux (k2 :: ks) f (jsGetOpt t k) w hndf
          (by simp) hw
        split <;> rename_i hnil
        · rw [hnil] at ih
          rw [jsGetPath_obj_cons] at ih
          simp only [JFields.lookup, jsGetPath_none] at ih
          simp only [jsGetPath_none]
          constructor
          · intro hfalse
            exact absurd hfalse (by simp)
          · intro hr
            exact absurd (ih.mpr hr) (by simp)
        · exact ih
      all_goals
        simp [jsGetPath_ite_leaf, jsGetPath_leaf, isLeafB]

/-- C1 (amended): for a source tree `S` with JS-unique keys and a target tree
`T`, the missing-key set holds a leaf (non-subtree) value `w` at a non-empty
path `p` iff the source holds that same leaf `w` at `p` and the chained
property read of `p` in the target yields `undefined` or `null`.  Intermediate
container keys appear in the diff exactly when some such leaf lies below them
— so a key whose target value is a present non-null leaf CAN appear in the
diff (as a container) when the source holds a subtree there, and a key whose
source value is an empty subtree never appears; the claim's per-key iff holds
only at leaf positions. -/
theorem findMissingKeys_leaf_characterization (S : JFields) (T : JValue)
    (p : List String) (w : JValue) (hnd : nodupKeysF S = true) (hp : p ≠ [])
    (hw : isLeafB w = true) :
    jsGetPath (some (.vObj (findMissingKeys S (some T)))) p = some w ↔
      (jsGetPath (some (.vObj S)) p = some w ∧
        (jsGetPath (some T) p = none ∨ jsGetPath (some T) p = some .vNull)) :=
  findMissing_leafPath_aux p S (some T) w hnd hp hw

/-- C1, counterexample to the claim as stated: with source
`{a: {b: "x"}}` and target `{a: "hello"}`, the missing-key set contains the
top-level key `a` — because JS property reads on the string `"hello"` yield
`undefined`, so the recursion reports `b` missing — even though the value at
the same path in the target is the present, non-null leaf `"hello"`.  This
refutes "a key whose value in T is a non-null leaf is never included in the
missing set, even when the source value at that key is a nested subtree". -/
theorem findMissingKeys_includes_nonnull_target_leaf_key :
    (findMissingKeys (JFields.ofList [("a", .vObj (JFields.ofList [("b", .vStr "x")]))])
        (some (.vObj (JFields.ofList [("a", .vStr "hello")])))).hasKey "a" = true ∧
      ¬ (jsGetPath (some (.vObj (JFields.ofList [("a", .vStr "hello")]))) ["a"] = none ∨
          jsGetPath (some (.vObj (JFields.ofList [("a", .vStr "hello")]))) ["a"] =
            some .vNull) := by
  decide

/-- C1 witness: the amended characterization applied to the concrete source
`{greeting: "Hello"}`, empty target, path `[greeting]`, leaf `"Hello"`. -/
theorem findMissingKeys_leaf_characterization_witness :
    nodupKeysF (JFields.ofList [("greeting", .vStr "Hello")]) = true ∧
      (["greeting"] : List String) ≠ [] ∧
      isLeafB (.vStr "Hello") = true ∧
      (jsGetPath (some (.vObj (findMissingKeys
            (JFields.ofList [("greeting", .vStr "Hello")]) (some (.vObj .nil)))))
          ["greeting"] = some (.vStr "Hello") ↔
        (jsGetPath (some (.vObj (JFields.ofList [("greeting", .vStr "Hello")])))
            ["greeting"] = some (.vStr "Hello") ∧
          (jsGetPath (some (JValue.vObj .nil)) ["greeting"] = none ∨
            jsGetPath (some (JValue.vObj .nil)) ["greeting"] = some .vNull))) :=
  ⟨by decide, by decide, by decide,
    findMissingKeys_leaf_characterization
      (JFields.ofList [("greeting", .vStr "Hello")]) (.vObj .nil)
      ["greeting"] (.vStr "Hello") (by decide) (by decide) (by decide)⟩

/-! ### Helper lemmas about merge, write and the translator -/

theorem lookup_append_none :
    ∀ (a b : JFields) (k : String),
      a.lookup k = none → (a.append b).lookup k = b.lookup k
  | .nil, _, _ => fun _ => rfl
  | .cons k' v' rest, b, k => fun h => by
    by_cases hk : k' = k
    · simp [JFields.lookup, hk] at h
    · simp only [JFields.lookup, if_neg hk] at h
      simp only [JFields.append, JFields.lookup, if_neg hk]
      exact lookup_append_none rest b k h

theorem lookup_append_some :
    ∀ (a b : JFields) (k : String) (v : JValue),
      a.lookup k = some v → (a.append b).lookup k = some v
  | .nil, _, _, _ => fun h => by simp [JFields.lookup] at h
  | .cons k' v' rest, b, k, v => fun h => by
    by_cases hk : k' = k
    · simp only [JFields.lookup, if_pos hk] at h
      simp only [JFields.append, JFields.lookup, if_pos hk]
      exact h
    · simp only [JFields.lookup, if_neg hk] at h
      simp only [JFields.append, JFields.lookup, if_neg hk]
      exact lookup_append_some rest b k v h

theorem lookup_overrideFields :
    ∀ (e t : JFields) (k : String),
      (overrideFields e t).lookup k = (e.lookup k).map (fun v => (t.lookup k).getD v)
  | .nil, _, _ => rfl
  | .cons k' v' rest, t, k => by
    by_cases hk : k' = k
    · subst hk
      simp [overrideFields, JFields.lookup]
    · simp only [overrideFields, JFields.lookup, if_neg hk]
      exact lookup_overrideFields rest t k

theorem lookup_newFields_none :
    ∀ (t e : JFields) (k : String),
      t.lookup k = none → (newFields t e).lookup k = none
  | .nil, _, _ => fun _ => rfl
  | .cons k' v' rest, e, k => fun h => by
    by_cases hk : k' = k
    · simp [JFields.lookup, hk] at h
    · simp only [JFields.lookup, if_neg hk] at h
      have ih := lookup_newFields_none rest e k h
      simp only [newFields]
      split
      · exact ih
      · simp only [JFields.lookup, if_neg hk]
        exact ih

theorem lookup_setKey :
    ∀ (d : JFields) (k : String) (v : JValue), (setKey d k v).lookup k = some v
  | .nil, k, v => by simp [setKey, JFields.lookup]
  | .cons k' v' rest, k, v => by
    by_cases h : k' = k
    · subst h
      simp [setKey, JFields.lookup]
    · simp [setKey, JFields.lookup, h, lookup_setKey rest k v]

mutual
theorem shapeV_translateValue (f : String → String) :
    ∀ v : JValue, shapeV (translateValue f v) = shapeV v
  | .vNull => rfl
  | .vBool _ => rfl
  | .vNum _ => rfl
  | .vStr _ => rfl
  | .vArr xs => by
    simp only [translateValue, shapeV, shapeE_translateArray f xs]
  | .vObj fs => by
    simp only [translateValue, shapeV, shapeF_translateNestedObject f fs]
theorem shapeE_translateArray (f : String → String) :
    ∀ xs : JElems, shapeE (translateArray f xs) = shapeE xs
  | .nil => rfl
  | .cons x rest => by
    cases x <;>
      simp only [translateArray, shapeE, shapeV, shapeE_translateArray f rest]
theorem shapeF_translateNestedObject (f : String → String) :
    ∀ fs : JFields, shapeF (translateNestedObject f fs) = shapeF fs
  | .nil => rfl
  | .cons k v rest => by
    simp only [translateNestedObject, shapeF, shapeV_translateValue f v,
      shapeF_translateNestedObject f rest]
end

theorem keys_translateNestedObject (f : String → String) :
    ∀ fs : JFields, (translateNestedObject f fs).keys = fs.keys
  | .nil => rfl
  | .cons k v rest => by
    simp only [translateNestedObject, JFields.keys, keys_translateNestedObject f rest]

theorem length_translateArray (f : String → String) :
    ∀ xs : JElems, (translateArray f xs).length = xs.length
  | .nil => rfl
  | .cons x rest => by
    simp only [translateArray, JElems.length, length_translateArray f rest]

theorem get_translateArray (f : String → String) :
    ∀ (xs : JElems) (i : Nat),
      (translateArray f xs).get i =
        (xs.get i).map (fun x => match x with | .vStr s => .vStr (f s) | x => x)
  | .nil, _ => rfl
  | .cons x rest, 0 => by cases x <;> rfl
  | .cons x rest, i + 1 => by
    simp only [translateArray, JElems.get, get_translateArray f rest i]

mutual
theorem translateCallsV_flat :
    ∀ v : JValue, flatArraysV v = true → translateCallsV v = stringLeavesV v
  | .vNull => fun _ => rfl
  | .vBool _ => fun _ => rfl
  | .vNum _ => fun _ => rfl
  | .vStr _ => fun _ => rfl
  | .vArr xs => fun h => by
    simp only [translateCallsV, stringLeavesV]
    exact translateCallsE_flat xs (by simpa [flatArraysV] using h)
  | .vObj fs => fun h => by
    simp only [translateCallsV, stringLeavesV]
    exact translateCallsF_flat fs (by simpa [flatArraysV] using h)
theorem translateCallsE_flat :
    ∀ xs : JElems, flatArraysE xs = true → translateCallsE xs = stringLeavesE xs
  | .nil => fun _ => rfl
  | .cons x rest => fun h => by
    cases x with
    | vArr xs2 => simp [flatArraysE] at h
    | vObj fs2 => simp [flatArraysE] at h
    | vStr s =>
      simp only [flatArraysE] at h
      simp only [translateCallsE, stringLeavesE, stringLeavesV,
        translateCallsE_flat rest h]
    | vNull =>
      simp only [flatArraysE] at h
      simp only [translateCallsE, stringLeavesE, stringLeavesV,
        translateCallsE_flat rest h]
      omega
    | vBool b =>
      simp only [flatArraysE] at h
      simp only [translateCallsE, stringLeavesE, stringLeavesV,
        translateCallsE_flat rest h]
      omega
    | vNum n =>
      simp only [flatArraysE] at h
      simp only [translateCallsE, stringLeavesE, stringLeavesV,
        translateCallsE_flat rest h]
      omega
theorem translateCallsF_flat :
    ∀ fs : JFields, flatArraysF fs = true → translateCallsF fs = stringLeavesF fs
  | .nil => fun _ => rfl
  | .cons k v rest => fun h => by
    have h2 := (Bool.and_eq_true _ _).mp (by simpa [flatArraysF] using h)
    simp only [translateCallsF, stringLeavesF, translateCallsV_flat v h2.1,
      translateCallsF_flat rest h2.2]
end

/-- C2 (amended): the shallow merge `{...existing, ...translated}` leaves every
top-level key that the translated tree does not carry bound exactly as in the
existing tree (the spec's §8 merge non-destructiveness property).  The original
claim's "at every depth" strengthening is refuted separately: when a top-level
key occurs in both trees, the translated value replaces the existing one
wholesale, discarding nested keys only the existing tree had. -/
theorem spreadMerge_preserves_untranslated_keys (e t : JFields) (k : String)
    (h : t.lookup k = none) : (spreadMerge e t).lookup k = e.lookup k := by
  have ho := lookup_overrideFields e t k
  rcases he : e.lookup k with _ | v
  · rw [he] at ho
    simp only [Option.map_none'] at ho
    rw [spreadMerge, lookup_append_none _ _ _ ho, lookup_newFields_none t e k h]
  · rw [he, h] at ho
    simp only [Option.map_some', Option.getD_none] at ho
    rw [spreadMerge, lookup_append_some _ _ _ _ ho]

/-- C2, counterexample to the claim as stated: existing tree `{a: {x: "ex"}}`,
source `{a: {x: "sx", z: "sz"}}`.  The missing-key set is `{a: {z: "sz"}}`, so
the translated tree carries the top-level key `a`, and the shallow merge
replaces `existing.a` entirely: the previously-translated nested key `a.x`,
present and non-null in the existing tree, is absent from the merged tree. -/
theorem spreadMerge_drops_nested_existing_key :
    jsGetPath (some (.vObj (JFields.ofList [("a", .vObj (JFields.ofList [("x", .vStr "ex")]))]))) ["a", "x"] = some (.vStr "ex") ∧
      jsGetPath (some (.vObj (spreadMerge (JFields.ofList [("a", .vObj (JFields.ofList [("x", .vStr "ex")]))]) (translateNestedObject (fun s => String.append s "!") (findMissingKeys (JFields.ofList [("a", .vObj (JFields.ofList [("x", .vStr "sx"), ("z", .vStr "sz")]))]) (some (.vObj (JFields.ofList [("a", .vObj (JFields.ofList [("x", .vStr "ex")]))])))))))) ["a", "x"] = none := by
  constructor
  · decide
  · decide

/-- C2 witness: the amended merge preservation applied to the concrete existing
tree `{a: "ex"}` and translated tree `{b: "tb"}` at key `a`. -/
theorem spreadMerge_preserves_untranslated_keys_witness :
    (JFields.ofList [("b", .vStr "tb")]).lookup "a" = none ∧
      (spreadMerge (JFields.ofList [("a", .vStr "ex")])
          (JFields.ofList [("b", .vStr "tb")])).lookup "a" =
        (JFields.ofList [("a", .vStr "ex")]).lookup "a" :=
  ⟨by decide,
    spreadMerge_preserves_untranslated_keys
      (JFields.ofList [("a", .vStr "ex")])
      (JFields.ofList [("b", .vStr "tb")]) "a" (by decide)⟩

/-- C7: `translateNestedObject` is structure-preserving: output shape (key
sets, key order, nesting, array lengths and positions, non-string scalar
content) is identical to the input's at every level; string leaves become
their translations; array elements are translated exactly when they are
strings and passed through otherwise; null, boolean and number leaves are
returned unchanged and cost no provider call. -/
theorem translateNestedObject_structure_preserving (f : String → String) :
    (∀ fs : JFields, shapeF (translateNestedObject f fs) = shapeF fs ∧
        (translateNestedObject f fs).keys = fs.keys) ∧
      (∀ v : JValue, shapeV (translateValue f v) = shapeV v) ∧
      (∀ s, translateValue f (.vStr s) = .vStr (f s)) ∧
      (∀ xs : JElems, (translateArray f xs).length = xs.length ∧
        ∀ i, (translateArray f xs).get i =
          (xs.get i).map (fun x => match x with | .vStr s => .vStr (f s) | x => x)) ∧
      (translateValue f .vNull = .vNull ∧ translateCallsV .vNull = 0) ∧
      (∀ b, translateValue f (.vBool b) = .vBool b ∧ translateCallsV (.vBool b) = 0) ∧
      (∀ n : Int, translateValue f (.vNum n) = .vNum n ∧ translateCallsV (.vNum n) = 0) :=
  ⟨fun fs => ⟨shapeF_translateNestedObject f fs, keys_translateNestedObject f fs⟩,
    fun v => shapeV_translateValue f v,
    fun _ => rfl,
    fun xs => ⟨length_translateArray f xs, fun i => get_translateArray f xs i⟩,
    ⟨rfl, rfl⟩,
    fun _ => ⟨rfl, rfl⟩,
    fun _ => ⟨rfl, rfl⟩⟩

/-- C5: after the merge, the persisted tree's `calendar_locale` value is the
`daysForLocale` computation for the current locale whenever `calendar_locale`
is a top-level missing key — independently of the translation function, i.e.
never the machine-translation output — and when it is not missing the persist
step writes the merged tree unchanged. -/
theorem saveTranslations_calendar_override (existing missing : JFields)
    (f : String → String) (fmtW fmtM : String → String → Int → String)
    (tr : String → String → String) (tzMin : Int) (X : String) :
    (missing.hasKey "calendar_locale" = true →
      (saveTranslationsData (spreadMerge existing (translateNestedObject f missing))
          missing (calendarJValue (daysForLocale fmtW fmtM tr tzMin X X))).lookup
        "calendar_locale" =
        some (calendarJValue (daysForLocale fmtW fmtM tr tzMin X X))) ∧
    (missing.hasKey "calendar_locale" = false →
      saveTranslationsData (spreadMerge existing (translateNestedObject f missing))
          missing (calendarJValue (daysForLocale fmtW fmtM tr tzMin X X)) =
        spreadMerge existing (translateNestedObject f missing)) := by
  constructor
  · intro h
    rw [saveTranslationsData, if_pos h]
    exact lookup_setKey _ _ _
  · intro h
    rw [saveTranslationsData, if_neg (by simp [h])]

/-- C5 witness: the override applied with missing keys `{calendar_locale: "x"}`
(overridden) and, at a second input, missing keys `{b: "y"}` (left as merged),
for the locale `es` with concrete formatter and translator stubs. -/
theorem saveTranslations_calendar_override_witness :
    ((JFields.ofList [("calendar_locale", .vStr "x")]).hasKey "calendar_locale" = true ∧
      (saveTranslationsData
          (spreadMerge .nil (translateNestedObject (fun s => s)
            (JFields.ofList [("calendar_locale", .vStr "x")])))
          (JFields.ofList [("calendar_locale", .vStr "x")])
          (calendarJValue (daysForLocale (fun _ _ _ => "w") (fun _ _ _ => "m")
            (fun t _ => t) 0 "es" "es"))).lookup "calendar_locale" =
        some (calendarJValue (daysForLocale (fun _ _ _ => "w") (fun _ _ _ => "m")
          (fun t _ => t) 0 "es" "es"))) ∧
    ((JFields.ofList [("b", .vStr "y")]).hasKey "calendar_locale" = false ∧
      saveTranslationsData
          (spreadMerge .nil (translateNestedObject (fun s => s)
            (JFields.ofList [("b", .vStr "y")])))
          (JFields.ofList [("b", .vStr "y")])
          (calendarJValue (daysForLocale (fun _ _ _ => "w") (fun _ _ _ => "m")
            (fun t _ => t) 0 "es" "es")) =
        spreadMerge .nil (translateNestedObject (fun s => s)
          (JFields.ofList [("b", .vStr "y")]))) :=
  ⟨⟨by decide,
    (saveTranslations_calendar_override .nil
        (JFields.ofList [("calendar_locale", .vStr "x")]) (fun s => s)
        (fun _ _ _ => "w") (fun _ _ _ => "m") (fun t _ => t) 0 "es").1 (by decide)⟩,
   ⟨by decide,
    (saveTranslations_calendar_override .nil
        (JFields.ofList [("b", .vStr "y")]) (fun s => s)
        (fun _ _ _ => "w") (fun _ _ _ => "m") (fun t _ => t) 0 "es").2 (by decide)⟩⟩

/-- C10: on a missing-key set satisfying the data model's array invariant
(arrays hold only strings and non-container scalars), the tree translator
makes exactly one provider call per string leaf occurrence — including beneath
`calendar_locale`, which it translates like any ordinary subtree — and the
persist step adds exactly one more call (for the derived `Today` string) iff
`calendar_locale` is a missing top-level key; moreover the translated output
under `calendar_locale` is discarded at persist time in favor of the derived
calendar value, independently of the translation function. -/
theorem providerCalls_count (missing existing : JFields) (f : String → String)
    (cal : JValue) (h : flatArraysF missing = true) :
    totalProviderCalls missing =
        stringLeavesF missing +
          (if missing.hasKey "calendar_locale" then 1 else 0) ∧
      (missing.hasKey "calendar_locale" = true →
        (saveTranslationsData (spreadMerge existing (translateNestedObject f missing))
            missing cal).lookup "calendar_locale" = some cal) := by
  constructor
  · rw [totalProviderCalls, translateCallsF_flat missing h, saveTranslationsCalls,
      daysForLocaleCalls]
  · intro hc
    rw [saveTranslationsData, if_pos hc]
    exact lookup_setKey _ _ _

/-- C10 witness: the call count applied to the concrete missing set
`{calendar_locale: {dayNames: ["d1", "d2"]}, greeting: "hi", n: 7}`, which has
3 string leaves and `calendar_locale` among its top-level keys. -/
theorem providerCalls_count_witness :
    flatArraysF (JFields.ofList
        [("calendar_locale", .vObj (JFields.ofList
            [("dayNames", .vArr (JElems.ofList [.vStr "d1", .vStr "d2"]))])),
          ("greeting", .vStr "hi"), ("n", .vNum 7)]) = true ∧
      totalProviderCalls (JFields.ofList
          [("calendar_locale", .vObj (JFields.ofList
              [("dayNames", .vArr (JElems.ofList [.vStr "d1", .vStr "d2"]))])),
            ("greeting", .vStr "hi"), ("n", .vNum 7)]) =
        stringLeavesF (JFields.ofList
            [("calendar_locale", .vObj (JFields.ofList
                [("dayNames", .vArr (JElems.ofList [.vStr "d1", .vStr "d2"]))])),
              ("greeting", .vStr "hi"), ("n", .vNum 7)]) +
          (if (JFields.ofList
              [("calendar_locale", .vObj (JFields.ofList
                  [("dayNames", .vArr (JElems.ofList [.vStr "d1", .vStr "d2"]))])),
                ("greeting", .vStr "hi"), ("n", .vNum 7)]).hasKey "calendar_locale"
            then 1 else 0) :=
  ⟨by decide,
    (providerCalls_count (JFields.ofList
        [("calendar_locale", .vObj (JFields.ofList
            [("dayNames", .vArr (JElems.ofList [.vStr "d1", .vStr "d2"]))])),
          ("greeting", .vStr "hi"), ("n", .vNum 7)]) .nil (fun s => s) .vNull
      (by decide)).1⟩

/-! ### Retry loop lemmas -/

theorem apiLoop_success (provider : Nat → Option String) (value : String)
    (rc a n d : Nat) (res : String) (han : a ≤ n) (hnrc : n ≤ rc)
    (hfail : ∀ i, a ≤ i → i < n → provider i = none)
    (hsucc : provider n = some res) :
    apiLoop provider value rc a d =
      (.ok (some res), n - a + 1, (List.range (n - a)).map (fun j => d * 2 ^ j)) := by
  rcases Nat.lt_or_ge a n with hlt | hge
  · have hfa : provider a = none := hfail a (Nat.le_refl a) hlt
    have harc : a < rc := Nat.lt_of_lt_of_le hlt hnrc
    have hnotlt : ¬ rc < a := by omega
    have ih := apiLoop_success provider value rc (a + 1) n (d * 2) res hlt hnrc
      (fun i h1 h2 => hfail i (Nat.le_of_succ_le h1) h2) hsucc
    rw [apiLoop]
    simp only [if_neg hnotlt, hfa, if_pos harc, ih, Prod.mk.injEq]
    refine ⟨trivial, by omega, ?_⟩
    have h3 : n - a = (n - (a + 1)) + 1 := by omega
    rw [h3, List.range_succ_eq_map, List.map_cons, List.map_map]
    refine congrArg₂ List.cons (by simp) ?_
    refine List.map_congr_left ?_
    intro j hj
    simp only [Function.comp_apply, pow_succ]
    ring
  · have hae : a = n := Nat.le_antisymm han hge
    subst hae
    have hnotlt : ¬ rc < a := by omega
    rw [apiLoop]
    simp only [if_neg hnotlt, hsucc]
    simp
termination_by n - a

theorem apiLoop_allFail (provider : Nat → Option String) (value : String)
    (rc a d : Nat) (harc : a ≤ rc)
    (hfail : ∀ i, a ≤ i → i ≤ rc → provider i = none) :
    apiLoop provider value rc a d =
      (.error (value, rc), rc - a + 1, (List.range (rc - a)).map (fun j => d * 2 ^ j)) := by
  rcases Nat.lt_or_ge a rc with hlt | hge
  · have hfa : provider a = none := hfail a (Nat.le_refl a) (Nat.le_of_lt hlt)
    have hnotlt : ¬ rc < a := by omega
    have ih := apiLoop_allFail provider value rc (a + 1) (d * 2) hlt
      (fun i h1 h2 => hfail i (Nat.le_of_succ_le h1) h2)
    rw [apiLoop]
    simp only [if_neg hnotlt, hfa, if_pos hlt, ih, Prod.mk.injEq]
    refine ⟨trivial, by omega, ?_⟩
    have h3 : rc - a = (rc - (a + 1)) + 1 := by omega
    rw [h3, List.range_succ_eq_map, List.map_cons, List.map_map]
    refine congrArg₂ List.cons (by simp) ?_
    refine List.map_congr_left ?_
    intro j hj
    simp only [Function.comp_apply, pow_succ]
    ring
  · have hae : a = rc := Nat.le_antisymm harc hge
    subst hae
    have hfa : provider a = none := hfail a (Nat.le_refl a) (Nat.le_refl a)
    have hnotlt : ¬ a < a := by omega
    rw [apiLoop]
    simp only [if_neg (show ¬ a < a from hnotlt), hfa, if_neg hnotlt]
    simp
termination_by rc - a

/-- C4: the retry policy of `apiSingleCall` with the default initial delay of
1000 ms: if the provider fails the first `n - 1` calls and succeeds on the
`n`-th with `n ≤ retryCount`, the wrapper returns that result after exactly
`n` provider invocations, sleeping before each retry with the delay starting
at 1000 and doubling each time; if the provider always fails, it raises an
error carrying the original text and the attempt count after exactly
`retryCount` invocations (with the same doubling sleeps between attempts). -/
theorem apiSingleCall_retry_policy (provider : Nat → Option String)
    (value : String) (retryCount : Nat) (hrc : 1 ≤ retryCount) :
    (∀ (n : Nat) (res : String), 1 ≤ n → n ≤ retryCount →
        (∀ i, 1 ≤ i → i < n → provider i = none) → provider n = some res →
        apiSingleCall provider value retryCount 1000 =
          (.ok (some res), n, (List.range (n - 1)).map (fun j => 1000 * 2 ^ j))) ∧
      ((∀ i, 1 ≤ i → i ≤ retryCount → provider i = none) →
        apiSingleCall provider value retryCount 1000 =
          (.error (value, retryCount), retryCount,
            (List.range (retryCount - 1)).map (fun j => 1000 * 2 ^ j))) := by
  constructor
  · intro n res hn hnrc hfail hsucc
    have h := apiLoop_success provider value retryCount 1 n 1000 res hn hnrc hfail hsucc
    rw [apiSingleCall, h]
    have : n - 1 + 1 = n := by omega
    rw [this]
  · intro hfail
    have h := apiLoop_allFail provider value retryCount 1 1000 hrc hfail
    rw [apiSingleCall, h]
    have : retryCount - 1 + 1 = retryCount := by omega
    rw [this]

/-- C4 witness: a provider stub failing attempt 1 and succeeding on attempt 2
returns the second result after 2 calls with one 1000 ms sleep, and the
always-failing stub raises the failure carrying the text and the attempt count
3 after exactly 3 calls with sleeps 1000 then 2000 ms (default retry count 3). -/
theorem apiSingleCall_retry_policy_witness :
    (1 ≤ 3 ∧
      apiSingleCall (fun i => if i = 2 then some "hola" else none) "hello" 3 1000 =
        (.ok (some "hola"), 2, [1000])) ∧
      apiSingleCall (fun _ => none) "hello" 3 1000 =
        (.error ("hello", 3), 3, [1000, 2000]) := by
  refine ⟨⟨by decide, ?_⟩, ?_⟩
  · have h := (apiSingleCall_retry_policy (fun i => if i = 2 then some "hola" else none)
      "hello" 3 (by decide)).1 2 "hola" (by decide) (by decide)
      (by
        intro i h1 h2
        have : i = 1 := by omega
        subst this
        rfl)
      (by rfl)
    rw [h]
    rfl
  · have h := (apiSingleCall_retry_policy (fun _ => none) "hello" 3 (by decide)).2
      (fun i _ _ => rfl)
    rw [h]
    rfl

/-! ### Serializer round-trip lemmas -/

theorem hasChar_cons_false {c x : Char} {v : List Char}
    (h : hasChar (c :: v) x = false) : ¬ c = x ∧ hasChar v x = false := by
  simp only [hasChar, Bool.or_eq_false_iff, decide_eq_false_iff_not] at h
  exact h

theorem hasDollarBrace_cons_false {c : Char} {v : List Char}
    (h : hasDollarBrace (c :: v) = false) :
    ¬ (c = '$' ∧ v.head? = some '{') ∧ hasDollarBrace v = false := by
  simp only [hasDollarBrace, Bool.or_eq_false_iff, Bool.and_eq_false_iff,
    decide_eq_false_iff_not] at h
  constructor
  · rintro ⟨h1, h2⟩
    rcases h.1 with h3 | h3 <;> exact h3 (by simp [h1, h2])
  · exact h.2

theorem parseSingleQuoted_verbatim :
    ∀ (v rest : List Char), hasChar v '\\' = false → hasChar v squo = false →
      hasChar v '\n' = false → hasChar v '\r' = false →
      parseSingleQuoted (v ++ squo :: rest) = some (v, rest)
  | [], rest => fun _ _ _ _ => by
    rw [parseSingleQuoted.eq_def]
    simp
  | c :: v, rest => fun hbs hsq hnl hcr => by
    obtain ⟨hbs1, hbs2⟩ := hasChar_cons_false hbs
    obtain ⟨hsq1, hsq2⟩ := hasChar_cons_false hsq
    obtain ⟨hnl1, hnl2⟩ := hasChar_cons_false hnl
    obtain ⟨hcr1, hcr2⟩ := hasChar_cons_false hcr
    have ih := parseSingleQuoted_verbatim v rest hbs2 hsq2 hnl2 hcr2
    rw [List.cons_append, parseSingleQuoted.eq_def]
    simp only [if_neg hsq1, if_neg (show ¬ (c = '\n' ∨ c = '\r') by tauto),
      if_neg hbs1, ih, Option.map_some']

theorem head_append_ne_brace {v rest : List Char} {b : Char}
    (hv : hasDollarBrace v = false) (hb : ¬ b = '{')
    (hfirst : ∀ c v2, v = c :: v2 → ¬ c = '{') :
    ¬ (v ++ b :: rest).head? = some '{' := by
  cases v with
  | nil => simp [hb]
  | cons c v2 =>
    simp only [List.cons_append, List.head?]
    intro h
    exact hfirst c v2 rfl (by simpa using h)

theorem parseTemplateBody_verbatim :
    ∀ (v rest : List Char), hasChar v '\\' = false → hasChar v btk = false →
      hasChar v '\r' = false → hasDollarBrace v = false →
      parseTemplateBody (v ++ btk :: rest) = some (v, rest)
  | [], rest => fun _ _ _ _ => by
    rw [parseTemplateBody.eq_def]
    simp
  | c :: v, rest => fun hbs hbt hcr hdb => by
    obtain ⟨hbs1, hbs2⟩ := hasChar_cons_false hbs
    obtain ⟨hbt1, hbt2⟩ := hasChar_cons_false hbt
    obtain ⟨hcr1, hcr2⟩ := hasChar_cons_false hcr
    obtain ⟨hdb1, hdb2⟩ := hasDollarBrace_cons_false hdb
    have ih := parseTemplateBody_verbatim v rest hbs2 hbt2 hcr2 hdb2
    have hcond : ¬ (c = '$' ∧ (v ++ btk :: rest).head? = some '{') := by
      rintro ⟨hc, hh⟩
      cases v with
      | nil => simp [btk] at hh
      | cons c2 v2 =>
        simp only [List.cons_append, List.head?, Option.some.injEq] at hh
        exact hdb1 ⟨hc, by simp [hh]⟩
    rw [List.cons_append, parseTemplateBody.eq_def]
    simp only [if_neg hbt1, if_neg hcr1, if_neg hbs1, if_neg hcond, ih, Option.map_some']

theorem escBackticks_head_not_brace {v : List Char}
    (h : ∀ c v2, v = c :: v2 → ¬ c = '{') :
    ∀ c v2, escBackticks v = c :: v2 → ¬ c = '{' := by
  intro c v2 he
  cases v with
  | nil => simp [escBackticks] at he
  | cons c0 v0 =>
    by_cases hb : c0 = btk
    · subst hb
      rw [escBackticks, if_pos rfl] at he
      rw [List.cons.injEq] at he
      intro hc
      rw [hc] at he
      exact absurd he.1.symm (by decide)
    · rw [escBackticks, if_neg hb, List.cons.injEq] at he
      intro hc
      exact h c0 v0 rfl (by rw [← he.1] at hc; exact hc)

theorem parseTemplateBody_escaped :
    ∀ (v rest : List Char), hasChar v '\\' = false → hasChar v '\r' = false →
      hasDollarBrace v = false →
      parseTemplateBody (escBackticks v ++ btk :: rest) = some (v, rest)
  | [], rest => fun _ _ _ => by
    rw [escBackticks, List.nil_append, parseTemplateBody.eq_def]
    simp
  | c :: v, rest => fun hbs hcr hdb => by
    obtain ⟨hbs1, hbs2⟩ := hasChar_cons_false hbs
    obtain ⟨hcr1, hcr2⟩ := hasChar_cons_false hcr
    obtain ⟨hdb1, hdb2⟩ := hasDollarBrace_cons_false hdb
    have ih := parseTemplateBody_escaped v rest hbs2 hcr2 hdb2
    by_cases hbt : c = btk
    · subst hbt
      rw [escBackticks, if_pos rfl, List.cons_append, parseTemplateBody.eq_def]
      simp only [if_neg (show ¬ '\\' = btk by decide),
        if_neg (show ¬ '\\' = '\r' by decide), if_pos rfl, List.cons_append, ih,
        Option.map_some']
      have hesc : escChar btk = btk := by decide
      simp [hesc]
    · have hcond : ¬ (c = '$' ∧ (escBackticks v ++ btk :: rest).head? = some '{') := by
        rintro ⟨hc, hh⟩
        rcases he : escBackticks v with _ | ⟨c2, v2⟩
        · rw [he] at hh
          simp [btk] at hh
        · rw [he] at hh
          simp only [List.cons_append, List.head?, Option.some.injEq] at hh
          have hfirst : ∀ c0 v0, v = c0 :: v0 → ¬ c0 = '{' := by
            intro c0 v0 hv0 hcb
            apply hdb1
            refine ⟨hc, ?_⟩
            rw [hv0, hcb]
            simp
          exact escBackticks_head_not_brace hfirst c2 v2 he hh
      rw [escBackticks, if_neg hbt, List.cons_append, parseTemplateBody.eq_def]
      simp only [if_neg hbt, if_neg hcr1, if_neg hbs1, if_neg hcond, ih, Option.map_some']

/-- C8 (amended): the serializer's string-literal formatting round-trips — the
emitted literal parses back to exactly the original string — for every string
that contains no backslash, no carriage return and no `${` sequence, provided
it does not contain a newline and a backtick simultaneously.  In particular
embedded newlines, embedded single or double quotes, and backticks in
newline-free strings are all represented safely.  (The excluded combinations
genuinely corrupt: a newline-carrying string takes the template branch whose
`replace(/\n/g, '\n')` is the identity, so its backticks are emitted
unescaped.) -/
theorem formatValue_string_roundtrip (v : List Char)
    (hbs : hasChar v '\\' = false) (hcr : hasChar v '\r' = false)
    (hdb : hasDollarBrace v = false)
    (hmix : ¬ (hasChar v '\n' = true ∧ hasChar v btk = true)) :
    parseJsLiteral (formatStringValue v) = some v := by
  unfold formatStringValue
  split
  · rename_i hnl
    have hbt : hasChar v btk = false := by
      rcases h : hasChar v btk with _ | _
      · rfl
      · exact absurd ⟨hnl, h⟩ hmix
    have hp := parseTemplateBody_verbatim v [] hbs hbt hcr hdb
    simp [parseJsLiteral, if_neg (show ¬ btk = squo by decide), hp]
  · split
    · have hp := parseTemplateBody_escaped v [] hbs hcr hdb
      simp [parseJsLiteral, if_neg (show ¬ btk = squo by decide), hp]
    · rename_i hnl hq
      have hsq : hasChar v squo = false := by
        rcases h : hasChar v squo with _ | _
        · rfl
        · exact absurd (Or.inl h) hq
      have hnl2 : hasChar v '\n' = false := by
        rcases h : hasChar v '\n' with _ | _
        · rfl
        · exact absurd h hnl
      have hp := parseSingleQuoted_verbatim v [] hbs hsq hnl2 hcr
      simp [parseJsLiteral, hp]

/-- C8, counterexample to the claim as stated: the two-character string
newline-then-backtick takes the newline branch, whose replace call is the
identity, so the backtick is emitted unescaped inside a template literal; the
emitted four characters do not parse back as a single string literal at all
(the inner backtick terminates the template early, leaving trailing input), so
the round-trip fails for a string containing only a newline and a backtick. -/
theorem formatValue_newline_backtick_corrupts :
    formatStringValue ['\n', btk] = [btk, '\n', btk, btk] ∧
      parseJsLiteral (formatStringValue ['\n', btk]) = none := by
  constructor
  · decide
  · decide

/-- C8 witness: the amended round-trip applied to the concrete string
`a"b`c` (double quote and backtick, no newline), which takes the
escaped-template branch. -/
theorem formatValue_string_roundtrip_witness :
    hasChar ['a', dquo, 'b', btk, 'c'] '\\' = false ∧
      hasChar ['a', dquo, 'b', btk, 'c'] '\r' = false ∧
      hasDollarBrace ['a', dquo, 'b', btk, 'c'] = false ∧
      ¬ (hasChar ['a', dquo, 'b', btk, 'c'] '\n' = true ∧
          hasChar ['a', dquo, 'b', btk, 'c'] btk = true) ∧
      parseJsLiteral (formatStringValue ['a', dquo, 'b', btk, 'c']) =
        some ['a', dquo, 'b', btk, 'c'] :=
  ⟨by decide, by decide, by decide, by decide,
    formatValue_string_roundtrip ['a', dquo, 'b', btk, 'c']
      (by decide) (by decide) (by decide) (by decide)⟩

/-! ### Calendar derivation lemmas -/

theorem localShownDays_eq (u tz : Int) : localShownDays u tz = u + tz / 1440 := by
  rw [localShownDays]
  rw [show (86400000 : Int) * u + 60000 * tz = 60000 * tz + 86400000 * u from by ring]
  rw [Int.add_mul_ediv_left _ u (by norm_num : (86400000 : Int) ≠ 0)]
  rw [show (86400000 : Int) = 60000 * 1440 from by norm_num]
  rw [Int.mul_ediv_mul_of_pos _ _ (by norm_num : (0 : Int) < 60000)]
  ring

theorem jsUTCDays_june (d : Int) : jsUTCDays 2021 5 d = 18778 + d := by
  simp [jsUTCDays, daysFromCivil]
  omega

theorem shownWeekday_formula (d tz : Int) (h1 : -1440 < tz) (h2 : tz < 1440) :
    shownWeekday d tz = ((if tz < 0 then 0 else 1) + d) % 7 := by
  rw [shownWeekday, weekdayOfDays, localShownDays_eq, jsUTCDays_june]
  by_cases hs : tz < 0
  · have hdiv : tz / 1440 = -1 := by omega
    rw [hdiv, if_pos hs]
    omega
  · have hdiv : tz / 1440 = 0 := by omega
    rw [hdiv, if_neg hs]
    omega

theorem shownMonth_formula (m tz : Int) (hm1 : 0 ≤ m) (hm2 : m < 12)
    (h1 : -1440 < tz) (h2 : tz < 1440) : shownMonth m tz = m := by
  rw [shownMonth, localShownDays_eq]
  have hdiv : tz / 1440 = -1 ∨ tz / 1440 = 0 := by omega
  interval_cases m <;> rcases hdiv with hdiv | hdiv <;> rw [hdiv] <;> decide

/-- C6 (amended): the derived CalendarLocale consists of weekday names in long
and short form as 7 entries for seven consecutive days, month names in long and
short form as 12 entries (one per calendar month for every timezone offset
within a day of UTC), both formatted with the `lzh`-to-`zh` remapped locale
code, plus one machine-translated `Hoje` ("Today") string whose translation
call uses the original, unremapped current-locale tag.  The weekday sequence is
anchored at the fixed UTC midnight 2021-05-31 — a Monday in UTC — shown in the
runtime's local timezone, so it starts from Sunday exactly when the runtime
timezone offset is negative (as in the reference environment, UTC-3) and from
Monday otherwise; the claimed fixed Sunday start does not hold in general. -/
theorem daysForLocale_structure (fmtW fmtM : String → String → Int → String)
    (tr : String → String → String) (tz : Int) (loc cur : String)
    (h1 : -1440 < tz) (h2 : tz < 1440) :
    (let lc := if loc = "lzh" then "zh" else loc
     let s : Int := if tz < 0 then 0 else 1
     (daysForLocale fmtW fmtM tr tz loc cur).dayNames =
        [fmtW lc "long" ((s + 0) % 7), fmtW lc "long" ((s + 1) % 7),
         fmtW lc "long" ((s + 2) % 7), fmtW lc "long" ((s + 3) % 7),
         fmtW lc "long" ((s + 4) % 7), fmtW lc "long" ((s + 5) % 7),
         fmtW lc "long" ((s + 6) % 7)] ∧
      (daysForLocale fmtW fmtM tr tz loc cur).dayNamesShort =
        [fmtW lc "short" ((s + 0) % 7), fmtW lc "short" ((s + 1) % 7),
         fmtW lc "short" ((s + 2) % 7), fmtW lc "short" ((s + 3) % 7),
         fmtW lc "short" ((s + 4) % 7), fmtW lc "short" ((s + 5) % 7),
         fmtW lc "short" ((s + 6) % 7)] ∧
      (daysForLocale fmtW fmtM tr tz loc cur).monthNames =
        [fmtM lc "long" 0, fmtM lc "long" 1, fmtM lc "long" 2, fmtM lc "long" 3,
         fmtM lc "long" 4, fmtM lc "long" 5, fmtM lc "long" 6, fmtM lc "long" 7,
         fmtM lc "long" 8, fmtM lc "long" 9, fmtM lc "long" 10, fmtM lc "long" 11] ∧
      (daysForLocale fmtW fmtM tr tz loc cur).monthNamesShort =
        [fmtM lc "short" 0, fmtM lc "short" 1, fmtM lc "short" 2, fmtM lc "short" 3,
         fmtM lc "short" 4, fmtM lc "short" 5, fmtM lc "short" 6, fmtM lc "short" 7,
         fmtM lc "short" 8, fmtM lc "short" 9, fmtM lc "short" 10, fmtM lc "short" 11] ∧
      (daysForLocale fmtW fmtM tr tz loc cur).today = tr "Hoje" cur) := by
  have hW : ∀ d : Int, shownWeekday d tz = ((if tz < 0 then 0 else 1) + d) % 7 :=
    fun d => shownWeekday_formula d tz h1 h2
  have hM : ∀ m : Int, 0 ≤ m → m < 12 → shownMonth m tz = m :=
    fun m hm1 hm2 => shownMonth_formula m tz hm1 hm2 h1 h2
  simp only [daysForLocale]
  rw [show List.range 7 = [0, 1, 2, 3, 4, 5, 6] from rfl,
    show List.range 12 = [0, 1, 2, 3, 4, 5, 6, 7, 8, 9, 10, 11] from rfl]
  simp only [List.map]
  push_cast
  simp only [hW]
  refine ⟨?_, ?_, ?_, ?_, trivial⟩ <;> norm_num [hM]

/-- C6, counterexample to the claimed fixed Sunday start: in a runtime whose
timezone offset is 0 (UTC), the first weekday reference date
`Date.UTC(2021, 5, 0)` is 2021-05-31, a Monday, so with a formatter that
renders Sunday as `sun` and Monday as `mon` the weekday list begins with
`mon` and ends with `sun` instead of beginning with Sunday's name. -/
theorem daysForLocale_utc_starts_monday :
    (daysForLocale
        (fun _ _ i => if i = 0 then "sun" else if i = 1 then "mon" else "other")
        (fun _ _ _ => "m") (fun t _ => t) 0 "en" "en").dayNames =
      ["mon", "other", "other", "other", "other", "other", "sun"] ∧
    ("mon" : String) ≠ "sun" := by
  constructor
  · decide
  · decide

/-- C6 witness: the amended structure theorem applied at the offset -180
minutes (the reference environment's UTC-3) to the remapped locale `lzh` with
constant formatter and translator stubs. -/
theorem daysForLocale_structure_witness :
    ((-1440 : Int) < -180 ∧ (-180 : Int) < 1440) ∧
      ((daysForLocale (fun _ _ _ => "w") (fun _ _ _ => "m") (fun _ _ => "t")
            (-180) "lzh" "lzh").dayNames = ["w", "w", "w", "w", "w", "w", "w"] ∧
        (daysForLocale (fun _ _ _ => "w") (fun _ _ _ => "m") (fun _ _ => "t")
            (-180) "lzh" "lzh").dayNamesShort = ["w", "w", "w", "w", "w", "w", "w"] ∧
        (daysForLocale (fun _ _ _ => "w") (fun _ _ _ => "m") (fun _ _ => "t")
            (-180) "lzh" "lzh").monthNames =
          ["m", "m", "m", "m", "m", "m", "m", "m", "m", "m", "m", "m"] ∧
        (daysForLocale (fun _ _ _ => "w") (fun _ _ _ => "m") (fun _ _ => "t")
            (-180) "lzh" "lzh").monthNamesShort =
          ["m", "m", "m", "m", "m", "m", "m", "m", "m", "m", "m", "m"] ∧
        (daysForLocale (fun _ _ _ => "w") (fun _ _ _ => "m") (fun _ _ => "t")
            (-180) "lzh" "lzh").today = "t") :=
  ⟨⟨by decide, by decide⟩,
    daysForLocale_structure (fun _ _ _ => "w") (fun _ _ _ => "m") (fun _ _ => "t")
      (-180) "lzh" "lzh" (by decide) (by decide)⟩

/-- C9 (amended): for every locale the target file is read and written at
`{outputDir}/{locale}.ts` — the `.ts` suffix is hardcoded at line 267, so the
path coincides with the claimed `{outputDir}/{locale}.{ext}` exactly for `.ts`
sources — while the content format does follow the source extension (`.json`
sources are serialized with `JSON.stringify`, `.ts` sources as a TypeScript
module), and the target file is parsed when present and otherwise treated as
the empty tree, then fully rewritten. -/
theorem targetFile_path_and_format (outputDir locale : String) :
    filePathFor outputDir locale = specTargetPath outputDir locale ".ts" ∧
      saveFormatFor ".json" = some PersistFormat.json ∧
      saveFormatFor ".ts" = some PersistFormat.tsModule ∧
      loadExisting none = JFields.nil ∧
      (∀ t : JFields, loadExisting (some t) = t) :=
  ⟨rfl, by decide, by decide, rfl, fun _ => rfl⟩

/-- C9, counterexample to the claim as stated: with a JSON source
(`ext = ".json"`), output directory `out` and locale `es`, the file actually
used is `out/es.ts`, not the claimed `out/es.json` — the write path's
extension does not follow the source extension, only the content format
does. -/
theorem targetFile_path_ignores_source_ext :
    filePathFor "out" "es" = "out/es.ts" ∧
      specTargetPath "out" "es" ".json" = "out/es.json" ∧
      filePathFor "out" "es" ≠ specTargetPath "out" "es" ".json" := by
  refine ⟨?_, ?_, ?_⟩ <;> decide

/-- C3, demonstration of the divergence on a concrete failing input: two
locales, `calendar_locale` among the missing keys of both, and the `Hoje`
network response arriving one loop iteration late.  Because line 235 invokes
`saveTranslations(...)` without `await`, locale 0's file write — which is
suspended inside `await daysForLocale(...)` on that network call — executes
only after locale 1's processing has already started: the produced event trace
is `start 0, start 1, write 0, write 1`, and the index of `start 1` is smaller
than the index of `write 0`.  When `calendar_locale` is not among the missing
keys the body of `saveTranslations` runs synchronously and the claimed
ordering does hold (`start 0, write 0, start 1, write 1`), which localizes the
bug to the missing `await`. -/
theorem localeLoop_write_lands_after_next_start :
    runLocalesTrace (fun _ => true) (fun _ => 1) [0, 1] [] =
        [LocEvent.start 0, LocEvent.start 1, LocEvent.write 0, LocEvent.write 1] ∧
      (runLocalesTrace (fun _ => true) (fun _ => 1) [0, 1] []).findIdx
          (fun e => e = LocEvent.start 1) <
        (runLocalesTrace (fun _ => true) (fun _ => 1) [0, 1] []).findIdx
          (fun e => e = LocEvent.write 0) ∧
      runLocalesTrace (fun _ => false) (fun _ => 1) [0, 1] [] =
        [LocEvent.start 0, LocEvent.write 0, LocEvent.start 1, LocEvent.write 1] := by
  refine ⟨?_, ?_, ?_⟩ <;> decide
